import Mathlib

/-!
Verification of the penalty-computation, gamma-rescaling, proximal-update and
channel-compression logic of the batchnorm-pruning repository
(`main.py`, together with the collaborators its spec describes).

The embedding is over exact rational arithmetic (`ℚ`).  Layers are modelled as
an ordered list (the output of `expand_model`, which flattens the module tree
in execution order); convolution layers carry their kernel sizes and channel
counts, extended batch-normalization layers carry their per-channel scale
vector.  `compute_dims` (defined in the repository's `utils` module, which is
not part of this snapshot) is modelled from the spec as the Spatial Dimension
Trace: one output spatial size per convolution, index-aligned with the
convolution subsequence; the trace is stored in the model record.
-/

/-- A convolution layer's structural data: `kernel_size[0]`, `kernel_size[1]`,
`in_channels`, `out_channels`. -/
structure Conv2d where
  kernel_w : ℕ
  kernel_h : ℕ
  in_channels : ℕ
  out_channels : ℕ
deriving DecidableEq

/-- One entry of the flattened layer sequence produced by `expand_model`:
a convolution (with its weight tensor, flattened to a list of rationals),
an extended batch-normalization layer (`bn.BatchNorm2dEx`, with its scale
vector `weight`), or any other layer kind. -/
inductive Layer where
  | conv2d (kernel_w kernel_h in_channels out_channels : ℕ) (weight : List ℚ)
  | batchNorm2dEx (weight : List ℚ)
  | other
deriving DecidableEq

/-- The `isinstance(l, nn.Conv2d)` filter of `compute_penalties`, keeping the
structural data the penalty formula reads. -/
def Layer.toConv : Layer → Option Conv2d
  | .conv2d kw kh ci co _ => some ⟨kw, kh, ci, co⟩
  | _ => none

/-- A network model: the flattened layer sequence (execution order), plus the
Spatial Dimension Trace.  Modelled from the spec: `compute_dims(model)` returns
the output spatial size (assumed square) after each convolution, one entry per
convolution and index-aligned with the convolution subsequence; here the trace
is carried in the model record and `compute_dims` reads it off. -/
structure Model where
  layers : List Layer
  dims : List ℕ

/-- Modelled from the spec: `compute_dims` (missing `utils` module) yields the
Spatial Dimension Trace of the model. -/
def compute_dims (m : Model) : List ℕ := m.dims

/-- The inner loop of `compute_penalties` (main.py line 49-50): iterating over
`enumerate(tail)` where `tail = layers[i+1:]`, accumulating
`follow_up_conv.kernel_size[0] * follow_up_conv.kernel_size[1] *
follow_up_conv.in_channels + image_dims[j+i]**2`.  The first argument of the
recursion is the running index `j + i`, starting at `i`. -/
def followUpCost (dims : List ℕ) : ℕ → List Conv2d → ℚ
  | _, [] => 0
  | idx, f :: rest =>
      ((f.kernel_w * f.kernel_h * f.in_channels : ℕ) : ℚ)
        + ((dims.getD idx 0 : ℕ) : ℚ) ^ 2
        + followUpCost dims (idx + 1) rest

/-- The penalty of the `i`-th convolution (main.py lines 38-53):
`ista = (1 / i_w * i_h) * (k_w * k_h * c_prev + follow_up_cost)` scaled by
`rho`, with `i_w = i_h = image_dim`.  Note the expression `1 / i_w * i_h` is
transcribed exactly as the source has it: it parses as `(1 / i_w) * i_h`. -/
def ista (layers : List Conv2d) (dims : List ℕ) (rho : ℚ) (image_dim : ℕ)
    (i : ℕ) : ℚ :=
  let l := layers.getD i ⟨0, 0, 0, 0⟩
  let i_w : ℚ := (image_dim : ℚ)
  let i_h : ℚ := (image_dim : ℚ)
  rho * ((1 / i_w * i_h) *
    (((l.kernel_w * l.kernel_h * l.in_channels : ℕ) : ℚ)
      + followUpCost dims i (layers.drop (i + 1))))

/-- `compute_penalties(model, rho, image_dim)` (main.py lines 30-58): filter
the flattened layer sequence down to the convolutions, then append one `ista`
value per convolution, in order. -/
def compute_penalties (m : Model) (rho : ℚ) (image_dim : ℕ) : List ℚ :=
  let layers := m.layers.filterMap Layer.toConv
  (List.range layers.length).map (ista layers (compute_dims m) rho image_dim)

/-- The loop of the incomplete alternate implementation `compute_penalties_`
(main.py lines 65-81): iterate over the pairs `zip(layers, layers[1:])`; on the
first pair `(Conv2d, BatchNorm2dEx)` the body evaluates the undefined name
`num_zeros` (and would later hit the undefined `tail` and `i`), which in Python
raises `NameError`; modelled as an `Except.error`.  If no such pair occurs, the
loop completes and the function returns the never-extended `penalties = []`. -/
def computePenaltiesAltGo : List Layer → Except String (List ℚ)
  | Layer.conv2d _ _ _ _ _ :: Layer.batchNorm2dEx _ :: _ =>
      Except.error "NameError: name num_zeros is not defined"
  | _ :: rest => computePenaltiesAltGo rest
  | [] => Except.ok []

/-- `compute_penalties_(model, rho, image_dim)` (main.py lines 65-81), the
incomplete alternate implementation; `rho` and `image_dim` are never read
before the undefined-name failure. -/
def compute_penalties_ (m : Model) (rho : ℚ) (image_dim : ℕ) :
    Except String (List ℚ) :=
  let _ := rho
  let _ := image_dim
  let _ := compute_dims m
  computePenaltiesAltGo m.layers

/-- Decides whether the flattened layer sequence contains a convolution
immediately followed by an extended batch-normalization layer, i.e. whether
the loop body of `compute_penalties_` is ever entered. -/
def hasConvBnPair : List Layer → Bool
  | Layer.conv2d _ _ _ _ _ :: Layer.batchNorm2dEx _ :: _ => true
  | _ :: rest => hasConvBnPair rest
  | [] => false

/-- The pair loop of `scale_gammas` (main.py lines 96-99): for every adjacent
pair `(l1, l2)` with `l1` a `BatchNorm2dEx` and `l2` a `Conv2d`, multiply the
normalization scales by `a` and the convolution weights by `b`.  After such a
pair is rewritten, the next pair the Python loop examines starts at the
(conv) layer `l2`, which can never match again as the first component, so the
recursion may resume after the pair. -/
def scaleGammasGo (a b : ℚ) : List Layer → List Layer
  | Layer.batchNorm2dEx w :: Layer.conv2d kw kh ci co v :: rest =>
      Layer.batchNorm2dEx (w.map (fun x => x * a)) ::
        Layer.conv2d kw kh ci co (v.map (fun x => x * b)) ::
          scaleGammasGo a b rest
  | l :: rest => l :: scaleGammasGo a b rest
  | [] => []

/-- `scale_gammas(alpha, model, scale_down)` (main.py lines 85-101): with
`scale_down = true` the scales are multiplied by `alpha` and the following
convolution's weights by `1 / alpha`; with `scale_down = false` the factors
are swapped (lines 91-94). -/
def scale_gammas (alpha : ℚ) (m : Model) (scale_down : Bool) : Model :=
  let a := if scale_down then alpha else 1 / alpha
  let b := if scale_down then 1 / alpha else alpha
  { m with layers := scaleGammasGo a b m.layers }

/-- The sign of a rational, as the spec's `sign(w)`: `1` for positive, `-1`
for negative, `0` for zero. -/
def sgn (w : ℚ) : ℚ := if 0 < w then 1 else if w < 0 then -1 else 0

/-- Modelled from the spec: the proximal soft-threshold step of the
`BatchNormSGD` optimizer (file `sgd.py`, which is not part of this snapshot),
applied element-wise per scale value `w` with its layer's penalty `p`:
`w' = sign(w) * max(|w| - lr * p, 0)`. -/
def proximal_step (lr p w : ℚ) : ℚ := sgn w * max (|w| - lr * p) 0

/-! Channel compressor.

`sparsify_on_bn` and `compress_convs` live in the repository's `utils` module,
which is not part of this snapshot; the compressor below is modelled from the
spec (§4.4).  A prunable pruning point is a (convolution, normalization) pair;
`Block.convW` is the convolution's weight tensor as a list of output-channel
rows, each row listing the input-channel entries, and `Block.scales` is the
normalization layer's per-channel scale vector. -/
structure Block where
  convW : List (List ℚ)
  scales : List ℚ
deriving DecidableEq

/-- Modelled from the spec: select, from `xs` (indexed by channel), exactly
the entries whose corresponding scale in the mask is non-zero, preserving
relative order ("channels whose learned scale is exactly zero are dropped; all
others survive, preserving relative order"). -/
def selectByMask : List ℚ → List α → List α
  | s :: ss, x :: xs =>
      if s = 0 then selectByMask ss xs else x :: selectByMask ss xs
  | _, _ => []

/-- The number of surviving channels of a scale vector: those with a non-zero
learned scale. -/
def numSurvivors (s : List ℚ) : ℕ := (s.filter (fun x => decide (x ≠ 0))).length

/-- Modelled from the spec: compress one pruning point.  Rows (output
channels) of the convolution weight and entries of the scale vector are kept
exactly for the surviving channels of this block's scales; the columns (input
channels) of each kept row are selected by the previous pruning point's
surviving set, given as `inMask`. -/
def compressBlock (inMask : List ℚ) (b : Block) : Block :=
  { convW := (selectByMask b.scales b.convW).map (selectByMask inMask),
    scales := selectByMask b.scales b.scales }

/-- Modelled from the spec: the weight-copying pass over all pruning points,
threading each block's scale vector as the next block's input-channel mask. -/
def compressBlocks : List ℚ → List Block → List Block
  | _, [] => []
  | inMask, b :: rest => compressBlock inMask b :: compressBlocks b.scales rest

/-- Modelled from the spec: the (input-channel, output-channel) counts the
compressed architecture must have at each pruning point — the surviving
counts, threaded through the network starting from the unpruned `inCh` input
channels. -/
def expectedCounts : ℕ → List Block → List (ℕ × ℕ)
  | _, [] => []
  | cin, b :: rest =>
      (cin, numSurvivors b.scales) :: expectedCounts (numSurvivors b.scales) rest

/-- Modelled from the spec: `compress(trained_model, target_architecture)`.
The target architecture's channel counts are checked against the computed
surviving counts before any weight is copied; on mismatch the compressor
fails fast with a shape-mismatch error and no partial model is produced. -/
def compress (inCh : ℕ) (blocks : List Block) (target : List (ℕ × ℕ)) :
    Except String (List Block) :=
  if target = expectedCounts inCh blocks then
    Except.ok (compressBlocks (List.replicate inCh 1) blocks)
  else
    Except.error "shape mismatch"

/-! Helper lemmas. -/

theorem followUpCost_nonneg (dims : List ℕ) :
    ∀ (idx : ℕ) (l : List Conv2d), 0 ≤ followUpCost dims idx l
  | _, [] => le_refl 0
  | idx, f :: rest => by
      have h := followUpCost_nonneg dims (idx + 1) rest
      unfold followUpCost
      positivity

theorem getD_map_range {α : Type} (f : ℕ → α) (n i : ℕ) (h : i < n) (y : α) :
    ((List.range n).map f).getD i y = f i := by
  rw [List.getD_eq_getElem?_getD, List.getElem?_map, List.getElem?_range h]
  rfl

theorem one_div_cast_mul_cancel (d : ℕ) (h : 0 < d) :
    (1 : ℚ) / (d : ℚ) * (d : ℚ) = 1 := by
  rw [one_div, inv_mul_cancel₀]
  exact_mod_cast h.ne'

/-! The claims. -/

/-- Claim C1: the proximal optimizer's threshold step computes
`w' = sign(w) * max(|w| - lr * p, 0)`; it returns exactly `0` whenever
`|w| <= lr * p`, and whenever `|w| > lr * p` it returns a value whose sign
equals the sign of `w` and whose magnitude equals `|w| - lr * p`. -/
theorem proximal_soft_threshold (lr p w : ℚ) (hp : 0 ≤ p) (hlr : 0 < lr) :
    proximal_step lr p w = sgn w * max (|w| - lr * p) 0 ∧
    (|w| ≤ lr * p → proximal_step lr p w = 0) ∧
    (lr * p < |w| →
      sgn (proximal_step lr p w) = sgn w ∧
      |proximal_step lr p w| = |w| - lr * p) := by
  have hlp : 0 ≤ lr * p := mul_nonneg hlr.le hp
  refine ⟨rfl, fun h => ?_, fun h => ?_⟩
  · have hm : max (|w| - lr * p) 0 = 0 := max_eq_right (by linarith)
    unfold proximal_step
    rw [hm, mul_zero]
  · have h0 : 0 < |w| - lr * p := by linarith
    have hm : max (|w| - lr * p) 0 = |w| - lr * p := max_eq_left h0.le
    have hw : w ≠ 0 := by
      intro h0'
      rw [h0'] at h
      simp only [abs_zero] at h
      linarith
    rcases hw.lt_or_lt with hneg | hpos
    · have hs : sgn w = -1 := by
        unfold sgn
        rw [if_neg (not_lt.mpr hneg.le), if_pos hneg]
      have hres : proximal_step lr p w = -(|w| - lr * p) := by
        unfold proximal_step
        rw [hm, hs]
        ring
      constructor
      · rw [hres, hs]
        unfold sgn
        rw [if_neg (by linarith), if_pos (by linarith)]
      · rw [hres, abs_neg, abs_of_pos h0]
    · have hs : sgn w = 1 := by
        unfold sgn
        rw [if_pos hpos]
      have hres : proximal_step lr p w = |w| - lr * p := by
        unfold proximal_step
        rw [hm, hs, one_mul]
      constructor
      · rw [hres, hs]
        unfold sgn
        rw [if_pos h0]
      · rw [hres, abs_of_pos h0]

theorem proximal_soft_threshold_witness :
    proximal_step 1 1 (1 / 2 : ℚ) = 0 ∧
    |proximal_step 1 1 (5 : ℚ)| = |(5 : ℚ)| - 1 * 1 := by
  constructor
  · refine (proximal_soft_threshold 1 1 (1 / 2) (by norm_num) (by norm_num)).2.1 ?_
    have habs : |(1 / 2 : ℚ)| = 1 / 2 := abs_of_pos (by norm_num)
    rw [habs]
    norm_num
  · refine ((proximal_soft_threshold 1 1 5 (by norm_num) (by norm_num)).2.2 ?_).2
    have habs : |(5 : ℚ)| = 5 := abs_of_pos (by norm_num)
    rw [habs]
    norm_num

/-- Claim C2 (code bug): the source's line
`ista = ((1 / i_w * i_h) * (k_w * k_h * c_prev + follow_up_cost))` parses the
normalization factor as `(1 / i_w) * i_h`, not `1 / (i_w * i_h)`.  Evaluated
on a single 1x1 convolution with one input channel, trace `[1]`, `rho = 1` and
`image_dim = 2`: the code yields penalty `1`, while the claimed formula with
the `1 / (i_w * i_h)` factor yields `1 / (2 * 2)`. -/
theorem compute_penalties_factor_eval :
    compute_penalties ⟨[Layer.conv2d 1 1 1 1 []], [1]⟩ 1 2 = [1] ∧
    compute_penalties ⟨[Layer.conv2d 1 1 1 1 []], [1]⟩ 1 2
      ≠ [1 * (1 / ((2 : ℚ) * 2) * (1 + 0))] := by
  have h : compute_penalties ⟨[Layer.conv2d 1 1 1 1 []], [1]⟩ 1 2 = [1] := by
    norm_num [compute_penalties, ista, followUpCost, compute_dims,
      Layer.toConv, List.filterMap, List.range, List.range.loop]
  refine ⟨h, ?_⟩
  rw [h]
  intro hcontra
  rw [List.cons.injEq] at hcontra
  have := hcontra.1
  norm_num at this

/-- Claim C4: scaling `rho` by a positive factor `k` scales every penalty by
exactly `k`, and `rho = 0` yields all-zero penalties. -/
theorem compute_penalties_rho_scaling (m : Model) (rho k : ℚ) (d : ℕ)
    (hk : 0 < k) :
    compute_penalties m (k * rho) d
      = (compute_penalties m rho d).map (fun x => k * x) ∧
    ∀ x ∈ compute_penalties m 0 d, x = 0 := by
  constructor
  · unfold compute_penalties
    rw [List.map_map]
    refine List.map_congr_left fun i _ => ?_
    unfold ista
    simp only [Function.comp_apply]
    ring
  · intro x hx
    unfold compute_penalties at hx
    rw [List.mem_map] at hx
    obtain ⟨i, _, hix⟩ := hx
    rw [← hix]
    unfold ista
    simp only [zero_mul]

theorem compute_penalties_rho_scaling_witness :
    compute_penalties ⟨[Layer.conv2d 1 1 1 1 []], [1]⟩ (2 * 3) 1
      = (compute_penalties ⟨[Layer.conv2d 1 1 1 1 []], [1]⟩ 3 1).map
          (fun x => 2 * x) ∧
    ∀ x ∈ compute_penalties ⟨[Layer.conv2d 1 1 1 1 []], [1]⟩ 0 1, x = 0 :=
  compute_penalties_rho_scaling ⟨[Layer.conv2d 1 1 1 1 []], [1]⟩ 3 2 1
    (by norm_num)

/-- Claim C8: `compute_penalties` returns exactly one scalar per prunable
(convolution) layer, indexed in the layers' execution order, and for
`rho ≥ 0` every returned scalar is non-negative. -/
theorem compute_penalties_shape_nonneg (m : Model) (rho : ℚ) (d : ℕ)
    (hrho : 0 ≤ rho) :
    (compute_penalties m rho d).length
      = (m.layers.filterMap Layer.toConv).length ∧
    ∀ x ∈ compute_penalties m rho d, 0 ≤ x := by
  constructor
  · unfold compute_penalties
    rw [List.length_map, List.length_range]
  · intro x hx
    unfold compute_penalties at hx
    rw [List.mem_map] at hx
    obtain ⟨i, _, hix⟩ := hx
    rw [← hix]
    unfold ista
    have hfactor : (0 : ℚ) ≤ 1 / ((d : ℚ)) * (d : ℚ) := by positivity
    have hfollow := followUpCost_nonneg (compute_dims m) i
      ((m.layers.filterMap Layer.toConv).drop (i + 1))
    have hown : (0 : ℚ) ≤
        ((((m.layers.filterMap Layer.toConv).getD i ⟨0, 0, 0, 0⟩).kernel_w *
          ((m.layers.filterMap Layer.toConv).getD i ⟨0, 0, 0, 0⟩).kernel_h *
          ((m.layers.filterMap Layer.toConv).getD i ⟨0, 0, 0, 0⟩).in_channels
            : ℕ) : ℚ) := by positivity
    exact mul_nonneg hrho (mul_nonneg hfactor (add_nonneg hown hfollow))

theorem compute_penalties_shape_nonneg_witness :
    (compute_penalties ⟨[Layer.conv2d 1 1 1 1 []], [1]⟩ 1 2).length
      = ((⟨[Layer.conv2d 1 1 1 1 []], [1]⟩ : Model).layers.filterMap
          Layer.toConv).length ∧
    ∀ x ∈ compute_penalties ⟨[Layer.conv2d 1 1 1 1 []], [1]⟩ 1 2, 0 ≤ x :=
  compute_penalties_shape_nonneg ⟨[Layer.conv2d 1 1 1 1 []], [1]⟩ 1 2
    (by norm_num)

/-- Claim C10: the `image_dim` argument has no effect on the result of
`compute_penalties` (for positive dimensions), because the code's factor
`1 / i_w * i_h` equals `i_h / i_w = 1` whenever `i_w = i_h`. -/
theorem compute_penalties_image_dim_irrelevant (m : Model) (rho : ℚ)
    (d1 d2 : ℕ) (h1 : 0 < d1) (h2 : 0 < d2) :
    compute_penalties m rho d1 = compute_penalties m rho d2 := by
  unfold compute_penalties
  refine List.map_congr_left fun i _ => ?_
  unfold ista
  simp only [one_div_cast_mul_cancel d1 h1, one_div_cast_mul_cancel d2 h2]

theorem compute_penalties_image_dim_irrelevant_witness :
    compute_penalties ⟨[Layer.conv2d 3 3 4 8 []], [5]⟩ 2 1
      = compute_penalties ⟨[Layer.conv2d 3 3 4 8 []], [5]⟩ 2 7 :=
  compute_penalties_image_dim_irrelevant ⟨[Layer.conv2d 3 3 4 8 []], [5]⟩ 2 1 7
    (by norm_num) (by norm_num)

/-- The follow-up cost exactly as claim C3 states it, written from the spec's
words for comparison with the code's `followUpCost`: the spatial term of each
follow-up convolution `f` is `f`'s own entry of the Spatial Dimension Trace.
With the running index starting at the current layer's index `i`, the `j`-th
follow-up convolution sits at trace index `i + j + 1`, i.e. `idx + 1` here,
where the code reads index `idx`. -/
def followUpCostClaim (dims : List ℕ) : ℕ → List Conv2d → ℚ
  | _, [] => 0
  | idx, f :: rest =>
      ((f.kernel_w * f.kernel_h * f.in_channels : ℕ) : ℚ)
        + ((dims.getD (idx + 1) 0 : ℕ) : ℚ) ^ 2
        + followUpCostClaim dims (idx + 1) rest

/-- The penalty computation exactly as claim C3 states it: identical to
`compute_penalties` except that the follow-up spatial terms are taken at the
follow-up convolution's own trace index. -/
def computePenaltiesClaim3 (m : Model) (rho : ℚ) (image_dim : ℕ) : List ℚ :=
  let layers := m.layers.filterMap Layer.toConv
  (List.range layers.length).map (fun i =>
    let l := layers.getD i ⟨0, 0, 0, 0⟩
    rho * ((1 / (image_dim : ℚ) * (image_dim : ℚ)) *
      (((l.kernel_w * l.kernel_h * l.in_channels : ℕ) : ℚ)
        + followUpCostClaim (compute_dims m) i (layers.drop (i + 1)))))

/-- Claim C3 fails on the code: for two 1x1 convolutions with trace `[2, 3]`,
`rho = 1`, `image_dim = 1`, the code's first penalty uses the spatial term
`image_dims[0]^2 = 4` (trace entry of the convolution preceding the follow-up)
and yields `[6, 1]`, while the claim's formula uses the follow-up convolution's
own trace entry `image_dims[1]^2 = 9` and yields `[11, 1]`. -/
theorem follow_up_cost_index_counterexample :
    compute_penalties
        ⟨[Layer.conv2d 1 1 1 1 [], Layer.conv2d 1 1 1 1 []], [2, 3]⟩ 1 1
      ≠ computePenaltiesClaim3
          ⟨[Layer.conv2d 1 1 1 1 [], Layer.conv2d 1 1 1 1 []], [2, 3]⟩ 1 1 := by
  have hL : compute_penalties
      ⟨[Layer.conv2d 1 1 1 1 [], Layer.conv2d 1 1 1 1 []], [2, 3]⟩ 1 1
      = [6, 1] := by
    norm_num [compute_penalties, ista, followUpCost, compute_dims,
      Layer.toConv, List.filterMap, List.range, List.range.loop]
  have hR : computePenaltiesClaim3
      ⟨[Layer.conv2d 1 1 1 1 [], Layer.conv2d 1 1 1 1 []], [2, 3]⟩ 1 1
      = [11, 1] := by
    norm_num [computePenaltiesClaim3, followUpCostClaim, compute_dims,
      Layer.toConv, List.filterMap, List.range, List.range.loop]
  rw [hL, hR]
  intro hcontra
  rw [List.cons.injEq] at hcontra
  have h6 := hcontra.1
  norm_num at h6

theorem followUpCost_eq_sum (dims : List ℕ) :
    ∀ (idx : ℕ) (l : List Conv2d),
      followUpCost dims idx l
        = ∑ j in Finset.range l.length,
            ((((l.getD j ⟨0, 0, 0, 0⟩).kernel_w *
                (l.getD j ⟨0, 0, 0, 0⟩).kernel_h *
                (l.getD j ⟨0, 0, 0, 0⟩).in_channels : ℕ) : ℚ)
              + ((dims.getD (idx + j) 0 : ℕ) : ℚ) ^ 2)
  | idx, [] => by simp [followUpCost]
  | idx, f :: rest => by
      have hrec := followUpCost_eq_sum dims (idx + 1) rest
      unfold followUpCost
      rw [List.length_cons, Finset.sum_range_succ', hrec, add_comm]
      congr 1
      refine Finset.sum_congr rfl fun j _ => ?_
      rw [List.getD_cons_succ]
      have hidx : idx + (j + 1) = idx + 1 + j := by omega
      rw [hidx]

/-- Claim C3 (amended): the follow-up cost that `compute_penalties`
accumulates for the `i`-th convolution equals the sum over all subsequent
convolutions `f` of `kernel_w(f) * kernel_h(f) * in_channels(f) +
spatial_size^2, where the spatial term of the `j`-th follow-up convolution
(the convolution at overall index `i + 1 + j`) is the Spatial Dimension Trace
entry at index `i + j` — the output size of the convolution preceding `f` —
rather than `f`'s own entry `i + j + 1` as the claim stated. -/
theorem follow_up_cost_indexing (m : Model) (rho : ℚ) (d : ℕ) (i : ℕ)
    (hi : i < (m.layers.filterMap Layer.toConv).length) :
    (compute_penalties m rho d).getD i 0
      = rho * ((1 / (d : ℚ) * (d : ℚ)) *
          (((((m.layers.filterMap Layer.toConv).getD i ⟨0, 0, 0, 0⟩).kernel_w *
              ((m.layers.filterMap Layer.toConv).getD i ⟨0, 0, 0, 0⟩).kernel_h *
              ((m.layers.filterMap Layer.toConv).getD i
                ⟨0, 0, 0, 0⟩).in_channels : ℕ) : ℚ)
            + ∑ j in Finset.range
                ((m.layers.filterMap Layer.toConv).length - (i + 1)),
                (((((m.layers.filterMap Layer.toConv).getD (i + 1 + j)
                      ⟨0, 0, 0, 0⟩).kernel_w *
                    ((m.layers.filterMap Layer.toConv).getD (i + 1 + j)
                      ⟨0, 0, 0, 0⟩).kernel_h *
                    ((m.layers.filterMap Layer.toConv).getD (i + 1 + j)
                      ⟨0, 0, 0, 0⟩).in_channels : ℕ) : ℚ)
                  + ((m.dims.getD (i + j) 0 : ℕ) : ℚ) ^ 2))) := by
  unfold compute_penalties
  rw [getD_map_range _ _ _ hi]
  unfold ista
  simp only [compute_dims]
  rw [followUpCost_eq_sum, List.length_drop]
  have hdrop : ∀ j : ℕ,
      ((m.layers.filterMap Layer.toConv).drop (i + 1)).getD j ⟨0, 0, 0, 0⟩
        = (m.layers.filterMap Layer.toConv).getD (i + 1 + j) ⟨0, 0, 0, 0⟩ := by
    intro j
    rw [List.getD_eq_getElem?_getD, List.getElem?_drop,
      List.getD_eq_getElem?_getD]
  simp only [hdrop]

theorem follow_up_cost_indexing_witness :
    (compute_penalties
        ⟨[Layer.conv2d 1 1 1 1 [], Layer.conv2d 1 1 1 1 []], [2, 3]⟩ 1 1).getD
        0 0 = 6 := by
  rw [follow_up_cost_indexing
    ⟨[Layer.conv2d 1 1 1 1 [], Layer.conv2d 1 1 1 1 []], [2, 3]⟩ 1 1 0
    (by simp [Layer.toConv])]
  norm_num [Layer.toConv, List.filterMap, Finset.sum_range_one,
    List.getD_cons_succ, List.getD_cons_zero]

theorem computePenaltiesAltGo_error (ls : List Layer)
    (h : hasConvBnPair ls = true) :
    computePenaltiesAltGo ls
      = Except.error "NameError: name num_zeros is not defined" := by
  induction ls using computePenaltiesAltGo.induct <;>
    simp_all [computePenaltiesAltGo, hasConvBnPair]

theorem computePenaltiesAltGo_ok (ls : List Layer) (ps : List ℚ)
    (h : computePenaltiesAltGo ls = Except.ok ps) : ps = [] := by
  induction ls using computePenaltiesAltGo.induct <;>
    simp_all [computePenaltiesAltGo]

/-- Claim C9: the alternate implementation `compute_penalties_` is
incomplete; whenever the model contains a convolution immediately followed by
an extended batchnorm layer, it fails with an undefined-name error (its body
references `num_zeros`, `tail` and `i`, none of which are defined), and it
never returns a non-empty penalty list. -/
theorem compute_penalties_alt_incomplete (m : Model) (rho : ℚ) (d : ℕ) :
    (hasConvBnPair m.layers = true →
      compute_penalties_ m rho d
        = Except.error "NameError: name num_zeros is not defined") ∧
    ∀ ps, compute_penalties_ m rho d = Except.ok ps → ps = [] := by
  constructor
  · intro h
    unfold compute_penalties_
    exact computePenaltiesAltGo_error m.layers h
  · intro ps h
    unfold compute_penalties_ at h
    exact computePenaltiesAltGo_ok m.layers ps h

theorem compute_penalties_alt_incomplete_witness :
    compute_penalties_
        ⟨[Layer.conv2d 1 1 1 1 [], Layer.batchNorm2dEx [1]], [1]⟩ 1 1
      = Except.error "NameError: name num_zeros is not defined" :=
  (compute_penalties_alt_incomplete
    ⟨[Layer.conv2d 1 1 1 1 [], Layer.batchNorm2dEx [1]], [1]⟩ 1 1).1
    (by simp [hasConvBnPair])

theorem list_map_mul_cancel (a c : ℚ) (hac : a * c = 1) :
    ∀ w : List ℚ, (w.map (fun x => x * a)).map (fun x => x * c) = w := by
  intro w
  induction w with
  | nil => rfl
  | cons x xs ih => simp [ih, mul_assoc, hac]

theorem scaleGammasGo_bn_head (a b : ℚ) (w : List ℚ) (rest : List Layer) :
    ∃ w1 tail, scaleGammasGo a b (Layer.batchNorm2dEx w :: rest)
      = Layer.batchNorm2dEx w1 :: tail := by
  cases rest with
  | nil => exact ⟨w, [], by simp [scaleGammasGo]⟩
  | cons r0 rest1 =>
      cases r0 with
      | conv2d kw kh ci co v =>
          exact ⟨w.map (fun x => x * a),
            Layer.conv2d kw kh ci co (v.map (fun x => x * b)) ::
              scaleGammasGo a b rest1, by simp [scaleGammasGo]⟩
      | batchNorm2dEx w2 =>
          exact ⟨w, scaleGammasGo a b (Layer.batchNorm2dEx w2 :: rest1),
            by simp [scaleGammasGo]⟩
      | other =>
          exact ⟨w, scaleGammasGo a b (Layer.other :: rest1),
            by simp [scaleGammasGo]⟩

theorem scaleGammasGo_inv (a b c d : ℚ) (hac : a * c = 1) (hbd : b * d = 1)
    (ls : List Layer) :
    scaleGammasGo c d (scaleGammasGo a b ls) = ls := by
  induction ls using scaleGammasGo.induct a b with
  | case1 w kw kh ci co v rest ih =>
      simp [scaleGammasGo, list_map_mul_cancel a c hac,
        list_map_mul_cancel b d hbd, ih]
  | case2 l rest hne ih =>
      cases l with
      | conv2d kw kh ci co v =>
          have hinner : scaleGammasGo a b (Layer.conv2d kw kh ci co v :: rest)
              = Layer.conv2d kw kh ci co v :: scaleGammasGo a b rest := by
            simp [scaleGammasGo]
          have houter : scaleGammasGo c d
                (Layer.conv2d kw kh ci co v :: scaleGammasGo a b rest)
              = Layer.conv2d kw kh ci co v ::
                  scaleGammasGo c d (scaleGammasGo a b rest) := by
            simp [scaleGammasGo]
          rw [hinner, houter, ih]
      | other =>
          have hinner : scaleGammasGo a b (Layer.other :: rest)
              = Layer.other :: scaleGammasGo a b rest := by
            simp [scaleGammasGo]
          have houter : scaleGammasGo c d
                (Layer.other :: scaleGammasGo a b rest)
              = Layer.other :: scaleGammasGo c d (scaleGammasGo a b rest) := by
            simp [scaleGammasGo]
          rw [hinner, houter, ih]
      | batchNorm2dEx w =>
          cases rest with
          | nil => simp [scaleGammasGo]
          | cons r0 rest1 =>
              cases r0 with
              | conv2d kw kh ci co v =>
                  exact absurd rfl (fun h => hne w kw kh ci co v rest1 rfl h)
              | batchNorm2dEx w2 =>
                  obtain ⟨w1, tail, hshape⟩ := scaleGammasGo_bn_head a b w2 rest1
                  have hinner : scaleGammasGo a b
                        (Layer.batchNorm2dEx w :: Layer.batchNorm2dEx w2 ::
                          rest1)
                      = Layer.batchNorm2dEx w ::
                          scaleGammasGo a b
                            (Layer.batchNorm2dEx w2 :: rest1) := by
                    simp [scaleGammasGo]
                  rw [hinner, hshape]
                  have houter : scaleGammasGo c d
                        (Layer.batchNorm2dEx w :: Layer.batchNorm2dEx w1 ::
                          tail)
                      = Layer.batchNorm2dEx w ::
                          scaleGammasGo c d
                            (Layer.batchNorm2dEx w1 :: tail) := by
                    simp [scaleGammasGo]
                  rw [houter, ← hshape, ih]
              | other =>
                  have hshape : scaleGammasGo a b (Layer.other :: rest1)
                      = Layer.other :: scaleGammasGo a b rest1 := by
                    simp [scaleGammasGo]
                  have hinner : scaleGammasGo a b
                        (Layer.batchNorm2dEx w :: Layer.other :: rest1)
                      = Layer.batchNorm2dEx w ::
                          scaleGammasGo a b (Layer.other :: rest1) := by
                    simp [scaleGammasGo]
                  rw [hinner, hshape]
                  have houter : scaleGammasGo c d
                        (Layer.batchNorm2dEx w :: Layer.other ::
                          scaleGammasGo a b rest1)
                      = Layer.batchNorm2dEx w ::
                          scaleGammasGo c d
                            (Layer.other :: scaleGammasGo a b rest1) := by
                    simp [scaleGammasGo]
                  rw [houter, ← hshape, ih]
  | case3 => rfl

/-- Claim C5: for `alpha ≠ 0`, applying the gamma rescaling in the shrink
direction (normalization scales times `alpha`, following convolution weights
times `1 / alpha`) and then in the grow direction (the reciprocal factors on
the same tensors) reproduces every original parameter value exactly. -/
theorem scale_gammas_roundtrip (alpha : ℚ) (m : Model) (h : alpha ≠ 0) :
    scale_gammas alpha (scale_gammas alpha m true) false = m := by
  cases m with
  | mk ls ds =>
      unfold scale_gammas
      simp only [if_pos, if_neg, Bool.false_eq_true, not_false_iff, ite_true,
        ite_false]
      have hac : alpha * (1 / alpha) = 1 := by
        field_simp
      have hbd : (1 / alpha) * alpha = 1 := by
        field_simp
      exact congrArg (fun xs => Model.mk xs ds)
        (scaleGammasGo_inv alpha (1 / alpha) (1 / alpha) alpha hac hbd ls)

theorem scale_gammas_roundtrip_witness :
    scale_gammas 2
        (scale_gammas 2
          ⟨[Layer.batchNorm2dEx [3], Layer.conv2d 1 1 1 1 [5]], [1]⟩ true)
        false
      = ⟨[Layer.batchNorm2dEx [3], Layer.conv2d 1 1 1 1 [5]], [1]⟩ :=
  scale_gammas_roundtrip 2
    ⟨[Layer.batchNorm2dEx [3], Layer.conv2d 1 1 1 1 [5]], [1]⟩ (by norm_num)

theorem selectByMask_length {α : Type} :
    ∀ (s : List ℚ) (xs : List α), xs.length = s.length →
      (selectByMask s xs).length = numSurvivors s
  | [], [], _ => rfl
  | s0 :: ss, x :: xs, h => by
      have h' : xs.length = ss.length := by
        simpa using h
      by_cases h0 : s0 = 0
      · rw [selectByMask, if_pos h0]
        unfold numSurvivors
        rw [List.filter_cons_of_neg (by simp [h0])]
        exact selectByMask_length ss xs h'
      · rw [selectByMask, if_neg h0]
        unfold numSurvivors
        rw [List.filter_cons_of_pos (by simp [h0])]
        simp only [List.length_cons]
        rw [selectByMask_length ss xs h']
        rfl

theorem selectByMask_self :
    ∀ s : List ℚ, selectByMask s s = s.filter (fun x => decide (x ≠ 0))
  | [] => rfl
  | s0 :: ss => by
      by_cases h0 : s0 = 0
      · rw [selectByMask, if_pos h0, List.filter_cons_of_neg (by simp [h0])]
        exact selectByMask_self ss
      · rw [selectByMask, if_neg h0, List.filter_cons_of_pos (by simp [h0])]
        rw [selectByMask_self ss]

theorem selectByMask_mem {α : Type} :
    ∀ (s : List ℚ) (xs : List α) (x : α), x ∈ selectByMask s xs → x ∈ xs
  | s0 :: ss, y :: xs, x, h => by
      by_cases h0 : s0 = 0
      · rw [selectByMask, if_pos h0] at h
        exact List.mem_cons_of_mem y (selectByMask_mem ss xs x h)
      · rw [selectByMask, if_neg h0] at h
        rcases List.mem_cons.mp h with h1 | h2
        · exact h1 ▸ List.mem_cons_self x xs
        · exact List.mem_cons_of_mem y (selectByMask_mem ss xs x h2)
  | [], xs, x, h => by
      cases xs <;> exact absurd h (List.not_mem_nil x)

theorem zeros_add_survivors :
    ∀ s : List ℚ,
      (s.filter (fun x => decide (x = 0))).length + numSurvivors s
        = s.length
  | [] => rfl
  | s0 :: ss => by
      have ih := zeros_add_survivors ss
      unfold numSurvivors
      by_cases h0 : s0 = 0
      · rw [List.filter_cons_of_pos (by simp [h0]),
          List.filter_cons_of_neg (by simp [h0])]
        simp only [List.length_cons]
        unfold numSurvivors at ih
        omega
      · rw [List.filter_cons_of_neg (by simp [h0]),
          List.filter_cons_of_pos (by simp [h0])]
        simp only [List.length_cons]
        unfold numSurvivors at ih
        omega

theorem compressBlocks_getD :
    ∀ (blocks : List Block) (inMask : List ℚ) (i : ℕ),
      i < blocks.length →
      (compressBlocks inMask blocks).getD i ⟨[], []⟩
        = compressBlock
            (if i = 0 then inMask
             else (blocks.getD (i - 1) ⟨[], []⟩).scales)
            (blocks.getD i ⟨[], []⟩)
  | [], _, i, h => absurd h (by simp)
  | b :: rest, inMask, 0, _ => by
      simp [compressBlocks]
  | b :: rest, inMask, i + 1, h => by
      have h' : i < rest.length := by
        simpa using h
      rw [compressBlocks]
      simp only [List.getD_cons_succ]
      rw [compressBlocks_getD rest b.scales i h']
      cases i with
      | zero => simp
      | succ i' => simp

/-- Claim C6: if prunable layer `i`'s normalization has exactly `z`
zero-valued scales out of `n` (with `z < n`), the compressed model has
exactly `n - z` output channels at that layer's normalization and
convolution, the next convolution has exactly `n - z` input channels, and the
surviving channels keep their relative order (the compressed scale vector is
the in-order filter of the non-zero scales). -/
theorem compress_channel_counts (inMask : List ℚ) (blocks : List Block)
    (i n z : ℕ) (hi : i + 1 < blocks.length)
    (hn : (blocks.getD i ⟨[], []⟩).scales.length = n)
    (hW : (blocks.getD i ⟨[], []⟩).convW.length = n)
    (hz : ((blocks.getD i ⟨[], []⟩).scales.filter
        (fun x => decide (x = 0))).length = z)
    (hzn : z < n)
    (hrow : ∀ r ∈ (blocks.getD (i + 1) ⟨[], []⟩).convW, r.length = n) :
    ((compressBlocks inMask blocks).getD i ⟨[], []⟩).scales.length = n - z ∧
    ((compressBlocks inMask blocks).getD i ⟨[], []⟩).convW.length = n - z ∧
    (∀ r ∈ ((compressBlocks inMask blocks).getD (i + 1) ⟨[], []⟩).convW,
      r.length = n - z) ∧
    ((compressBlocks inMask blocks).getD i ⟨[], []⟩).scales
      = (blocks.getD i ⟨[], []⟩).scales.filter (fun x => decide (x ≠ 0)) := by
  have hns : numSurvivors (blocks.getD i ⟨[], []⟩).scales = n - z := by
    have h4 := zeros_add_survivors (blocks.getD i ⟨[], []⟩).scales
    omega
  have hgi := compressBlocks_getD blocks inMask i (by omega)
  have hgi1 := compressBlocks_getD blocks inMask (i + 1) hi
  have hmask1 : (if i + 1 = 0 then inMask
      else (blocks.getD (i + 1 - 1) ⟨[], []⟩).scales)
      = (blocks.getD i ⟨[], []⟩).scales := by
    simp
  rw [hmask1] at hgi1
  refine ⟨?_, ?_, ?_, ?_⟩
  · rw [hgi]
    unfold compressBlock
    simp only
    rw [selectByMask_length _ _ rfl, hns]
  · rw [hgi]
    unfold compressBlock
    simp only [List.length_map]
    rw [selectByMask_length _ _ (by rw [hW, hn]), hns]
  · intro r hr
    rw [hgi1] at hr
    unfold compressBlock at hr
    simp only [List.mem_map] at hr
    obtain ⟨r0, hr0, hr0eq⟩ := hr
    have hr0mem := selectByMask_mem _ _ _ hr0
    have hr0len : r0.length = n := hrow r0 hr0mem
    rw [← hr0eq, selectByMask_length _ _ (by rw [hr0len, hn]), hns]
  · rw [hgi]
    unfold compressBlock
    simp only
    exact selectByMask_self _

theorem compress_channel_counts_witness :
    ((compressBlocks [1]
        [⟨[[1], [2], [3], [4]], [0, 5, 0, 8]⟩,
         ⟨[[1, 2, 3, 4]], [7]⟩]).getD 0 ⟨[], []⟩).scales.length = 4 - 2 ∧
    ((compressBlocks [1]
        [⟨[[1], [2], [3], [4]], [0, 5, 0, 8]⟩,
         ⟨[[1, 2, 3, 4]], [7]⟩]).getD 0 ⟨[], []⟩).convW.length = 4 - 2 ∧
    (∀ r ∈ ((compressBlocks [1]
        [⟨[[1], [2], [3], [4]], [0, 5, 0, 8]⟩,
         ⟨[[1, 2, 3, 4]], [7]⟩]).getD 1 ⟨[], []⟩).convW,
      r.length = 4 - 2) ∧
    ((compressBlocks [1]
        [⟨[[1], [2], [3], [4]], [0, 5, 0, 8]⟩,
         ⟨[[1, 2, 3, 4]], [7]⟩]).getD 0 ⟨[], []⟩).scales
      = (([⟨[[1], [2], [3], [4]], [0, 5, 0, 8]⟩,
          ⟨[[1, 2, 3, 4]], [7]⟩] : List Block).getD 0 ⟨[], []⟩).scales.filter
          (fun x => decide (x ≠ 0)) :=
  compress_channel_counts [1]
    [⟨[[1], [2], [3], [4]], [0, 5, 0, 8]⟩, ⟨[[1, 2, 3, 4]], [7]⟩] 0 4 2
    (by norm_num)
    (by norm_num)
    (by norm_num)
    (by norm_num [List.filter])
    (by norm_num)
    (by norm_num)

/-- Claim C7: if the target architecture's channel counts differ from the
computed surviving-channel counts, the channel compressor fails with a shape
mismatch before any weight copying takes effect — it returns an error and
never a (possibly truncated or padded) compressed model. -/
theorem compress_shape_mismatch_fail_fast (inCh : ℕ) (blocks : List Block)
    (target : List (ℕ × ℕ)) (h : target ≠ expectedCounts inCh blocks) :
    compress inCh blocks target = Except.error "shape mismatch" ∧
    ∀ out, compress inCh blocks target ≠ Except.ok out := by
  have herr : compress inCh blocks target = Except.error "shape mismatch" := by
    unfold compress
    rw [if_neg h]
  refine ⟨herr, fun out hc => ?_⟩
  rw [herr] at hc
  exact Except.noConfusion hc

theorem compress_shape_mismatch_fail_fast_witness :
    compress 1 [⟨[[1]], [1]⟩] [] = Except.error "shape mismatch" ∧
    ∀ out, compress 1 [⟨[[1]], [1]⟩] [] ≠ Except.ok out :=
  compress_shape_mismatch_fail_fast 1 [⟨[[1]], [1]⟩] []
    (by simp [expectedCounts])
